import Mathlib

/-!
A verification development for `astrbot_plugin_splitter` (`src/main.py`).

The plugin intercepts a reply (a list of message components), optionally
removes substrings matching a configured clean pattern, splits the list
into delivery units at matches of a configured split pattern, saves the
pre-clean full text to the conversation history, sends the units
sequentially with a delay, and suppresses the original reply.

Modelling conventions:
* A message component is either `Component.plain t` (the `Plain` text
  component) or `Component.media p` (any non-`Plain` component, payload
  abstract).
* `re.split(pattern, text)` is modelled by an arbitrary function
  `s : String → List String` giving the list of parts; real `re.split`
  always returns at least one part, and returns `[text]` exactly when the
  pattern does not match, so theorems that need these facts take them as
  hypotheses.  The text "with the matched separators removed" is, by the
  `re.split` contract, the concatenation of the returned parts.
* `re.sub(clean_pattern, "", text)` for a configured non-empty clean
  pattern is modelled by an arbitrary function `f : String → String`; the
  whole clean configuration is `Option (String → String)` where `none`
  models the empty (disabled) `clean_regex`.
* The sequential delivery loop and the history store interaction are
  modelled as pure functions producing event/result values, with the
  collaborator calls (`send_message`, the conversation manager, and
  `json.loads`) supplied as oracle arguments.
-/

namespace Splitter

/-- A message-chain component: `plain t` models `Plain(text=t)`; `media p`
models any non-`Plain` `BaseMessageComponent` (its payload is abstract). -/
inductive Component (α : Type) where
  | plain (text : String)
  | media (payload : α)
deriving DecidableEq

/-- The text of a `Plain` component, `none` for media components. -/
def textOf {α : Type} : Component α → Option String
  | .plain t => some t
  | .media _ => none

/-- The payload of a media component, `none` for `Plain` components. -/
def mediaOf {α : Type} : Component α → Option α
  | .plain _ => none
  | .media p => some p

/-- Concatenation of a list of strings with no separator. -/
def strJoin : List String → String
  | [] => ""
  | s :: r => s ++ strJoin r

/-- Line 38 of `main.py`: the concatenation, in order and with no separators,
of the text of every `Plain` component of a chain (used for history). -/
def full_text_for_history {α : Type} (chain : List (Component α)) : String :=
  strJoin (chain.filterMap textOf)

/-- Lines 35–49 of `main.py`, the cleaning pass: for each `Plain` component,
apply the clean substitution when a clean pattern is configured
(`cp = some f` models a non-empty `clean_regex`, `f` models
`re.sub(clean_regex, "", ·)`), and keep the component only if the
resulting text is non-empty (`if text:`); other components are kept
unchanged. -/
def cleaned_chain {α : Type} (cp : Option (String → String)) :
    List (Component α) → List (Component α)
  | [] => []
  | .plain t :: rest =>
    let text := match cp with
      | some f => f t
      | none => t
    (if text == "" then [] else [Component.plain text]) ++ cleaned_chain cp rest
  | .media p :: rest => Component.media p :: cleaned_chain cp rest

/-- The loop body and final flush of `split_chain` (`main.py` lines
137–164), with the accumulated `segments` and `current_buffer` made
explicit.  `s` models `re.split(pattern, ·)`.  `re.split` always returns
at least one part, so the `[]` branch is unreachable in the source and is
mirrored as "skip the component" here. -/
def split_chain_go {α : Type} (s : String → List String)
    (segments : List (List (Component α))) (current_buffer : List (Component α)) :
    List (Component α) → List (List (Component α))
  | [] =>
    -- lines 162–163: final flush of a non-empty buffer
    if current_buffer.isEmpty then segments else segments ++ [current_buffer]
  | .media p :: rest =>
    -- line 160: non-text components are appended to the buffer unchanged
    split_chain_go s segments (current_buffer ++ [Component.media p]) rest
  | .plain text :: rest =>
    match s text with
    | [] => split_chain_go s segments current_buffer rest
    | [_] =>
      -- lines 143–144: a single part means no match; keep the original component
      split_chain_go s segments (current_buffer ++ [Component.plain text]) rest
    | p0 :: p1 :: ps =>
      -- lines 146–147: `if parts[0]: current_buffer.append(Plain(parts[0]))`
      let buf1 := if p0 == "" then current_buffer else current_buffer ++ [Component.plain p0]
      -- lines 149–151: flush a non-empty buffer; afterwards the buffer is
      -- empty in both branches (it is reset if flushed, and was empty otherwise)
      let segs1 := if buf1.isEmpty then segments else segments ++ [buf1]
      -- lines 153–155: every non-empty interior part (`parts[1:-1]`)
      -- becomes its own singleton unit
      let segs2 := segs1 ++
        ((p1 :: ps).dropLast.filter (fun p => p != "")).map (fun p => [Component.plain p])
      -- lines 157–158: a non-empty last part (`parts[-1]`) seeds the new buffer
      let lastPart := (p1 :: ps).getLast (List.cons_ne_nil p1 ps)
      let buf3 := if lastPart == "" then ([] : List (Component α)) else [Component.plain lastPart]
      split_chain_go s segs2 buf3 rest

/-- Lines 133–165 of `main.py`: split a chain into delivery units at the
matches of the split pattern (`s` models `re.split(pattern, ·)`). -/
def split_chain {α : Type} (s : String → List String)
    (chain : List (Component α)) : List (List (Component α)) :=
  split_chain_go s [] [] chain

/-- Modelled from the spec (§4.2 Segmenter algorithm, the sentences behind
claim C1), independently of the implementation: with a current
accumulating unit `acc`, a media item is appended to `acc`; a text item
whose split yields one part is appended unchanged; for more than one part,
the non-empty first part is appended to `acc`, `acc` is closed out (pushed
if non-empty), each non-empty interior part becomes its own singleton
unit, and the non-empty last part seeds the new accumulating unit; at the
end a non-empty `acc` is appended as the final unit.  (`re.split` never
returns zero parts; that unreachable case skips the item.) -/
def segment_spec {α : Type} (s : String → List String)
    (acc : List (Component α)) : List (Component α) → List (List (Component α))
  | [] => if acc.isEmpty then [] else [acc]
  | .media p :: rest => segment_spec s (acc ++ [Component.media p]) rest
  | .plain t :: rest =>
    match s t with
    | [] => segment_spec s acc rest
    | [_] => segment_spec s (acc ++ [Component.plain t]) rest
    | p0 :: p1 :: ps =>
      let firstAcc := acc ++ (if p0 == "" then [] else [Component.plain p0])
      let closed := if firstAcc.isEmpty then [] else [firstAcc]
      let interior :=
        ((p1 :: ps).dropLast.filter (fun p => p != "")).map (fun p => [Component.plain p])
      let lastPart := (p1 :: ps).getLast (List.cons_ne_nil p1 ps)
      let newAcc := if lastPart == "" then ([] : List (Component α)) else [Component.plain lastPart]
      closed ++ interior ++ segment_spec s newAcc rest

/-- The segmenter as described by the spec, starting from an empty
accumulating unit. -/
def segmenter_spec {α : Type} (s : String → List String)
    (chain : List (Component α)) : List (List (Component α)) :=
  segment_spec s [] chain

/-- The per-component text "with the matched separators removed": by the
`re.split` contract, concatenating the parts returned for a text is the
text with the matches deleted.  Media components contribute nothing. -/
def removed_text {α : Type} (s : String → List String)
    (chain : List (Component α)) : String :=
  strJoin (chain.map fun c => match c with
    | .plain t => strJoin (s t)
    | .media _ => "")

/-- The in-place expansion of one component under segmentation: a media
component stays itself; a text component splitting into one part stays
itself (the code re-appends the original component); a text component
splitting into several parts is replaced by its non-empty parts in order
(the matched separators are gone, empty fragments are dropped); the
unreachable zero-part case vanishes.  Flattening the segmenter's output
yields exactly the input with each item expanded in place. -/
def expand_item {α : Type} (s : String → List String) : Component α → List (Component α)
  | .media p => [Component.media p]
  | .plain t =>
    match s t with
    | [] => []
    | [_] => [Component.plain t]
    | p0 :: p1 :: ps =>
      ((p0 :: p1 :: ps).filter (fun p => p != "")).map (fun p => Component.plain p)

/-- Returns `true` unless the component is a `Plain` with empty text (the
components the code's truthiness checks drop). -/
def keep_item {α : Type} : Component α → Bool
  | .plain t => t != ""
  | .media _ => true

/-- The cleaning substitution applied to one component (identity on media
components, and on everything when no clean pattern is configured). -/
def apply_clean {α : Type} (cp : Option (String → String)) :
    Component α → Component α
  | .plain t => Component.plain (match cp with
      | some f => f t
      | none => t)
  | .media p => Component.media p

/-- The externally observable outcome of one `on_decorating_result` pass:
the content handed to `save_history` (if any), the units handed to
`context.send_message`, whether `result.chain.clear()` ran, and whether
`event.stop_event()` ran. -/
structure PassResult (α : Type) where
  savedHistory : Option String
  sent : List (List (Component α))
  cleared : Bool
  stopped : Bool
deriving DecidableEq

/-- The no-op outcome: an early `return` from `on_decorating_result`
(nothing saved, nothing sent, chain untouched, event not stopped). -/
def pass_noop {α : Type} : PassResult α :=
  { savedHistory := none, sent := [], cleared := false, stopped := false }

/-- Lines 17–89 of `main.py` (`on_decorating_result`), as a function of the
configured clean substitution `cp` (`none` = empty `clean_regex`), the
split function `s`, and the reply chain: an empty chain returns early
(lines 22–24); otherwise the chain is cleaned and split, and if at most
one segment was produced and no clean pattern is configured
(`is_cleaned = (clean_pattern != "")`, line 56) the pass is a no-op
(lines 58–59); otherwise the pre-clean full text is saved to history, the
non-empty segments are sent, the original chain is cleared, and event
propagation is stopped (lines 66–89). -/
def on_decorating_result {α : Type} (cp : Option (String → String))
    (s : String → List String) (chain : List (Component α)) : PassResult α :=
  if chain.isEmpty then pass_noop
  else
    let segments := split_chain s (cleaned_chain cp chain)
    let is_cleaned := cp.isSome
    if segments.length ≤ 1 ∧ is_cleaned = false then pass_noop
    else
      { savedHistory := some (full_text_for_history chain)
        sent := segments.filter (fun u => !u.isEmpty)
        cleared := true
        stopped := true }

/-- Observable events of the delivery loop (`main.py` lines 69–83):
`attempt i` is the `send_message` call for segment `i`, `logFail i` the
`logger.error` in the `except` branch, and `sleep` the
`asyncio.sleep(delay)` between units. -/
inductive Ev where
  | attempt (i : Nat)
  | logFail (i : Nat)
  | sleep
deriving DecidableEq

/-- The delivery loop body of `main.py` lines 69–83 over the segments from
index `i` on, with `n` the total number of segments and `d j` telling
whether the `send_message` call for segment `j` succeeds: an empty
segment is skipped (`continue`); otherwise the send is attempted, and —
because the `asyncio.sleep` sits inside the same `try` block after the
send — the inter-unit sleep happens only when the send succeeded and the
segment is not the last one, while a failed send jumps to the `except`
branch, which logs and moves on. -/
def deliver_loop_go {α : Type} (d : Nat → Bool) (n : Nat) :
    Nat → List (List (Component α)) → List Ev
  | _, [] => []
  | i, seg :: rest =>
    (if seg.isEmpty then []
     else if d i then
       Ev.attempt i :: (if i < n - 1 then [Ev.sleep] else [])
     else [Ev.attempt i, Ev.logFail i]) ++ deliver_loop_go d n (i + 1) rest

/-- The event trace of the delivery loop (`main.py` lines 69–83) over a
segment list. -/
def deliver_loop {α : Type} (d : Nat → Bool)
    (segments : List (List (Component α))) : List Ev :=
  deliver_loop_go d segments.length 0 segments

/-- One record of the conversation history (`{"role": ..., "content": ...}`). -/
structure HRecord where
  role : String
  content : String
deriving DecidableEq

/-- The conversation object returned by the store; `history` is its
serialized history field (`None` modelled as `none`). -/
structure Conversation where
  history : Option String
deriving DecidableEq

/-- The observable outcome of `save_history`: the history list passed to
`update_conversation` (if that call was made) and whether the
`logger.error` in the `except` branch ran.  The function always returns —
the `try/except` swallows every store error, so `save_history` never
aborts the surrounding pass. -/
structure SaveResult where
  updateCalled : Option (List HRecord)
  errorLogged : Bool
deriving DecidableEq

/-- Lines 91–131 of `main.py` (`save_history`): `parse` models `json.loads`
(`none` = `JSONDecodeError`), `cid` the result of
`get_curr_conversation_id` (`Except.error` = the call raised), `getConv`
the result of `get_conversation`, and `updateOk` whether
`update_conversation` succeeds.  No conversation id or no conversation
object returns silently; a falsy (`None` or empty) or unparsable history
string is treated as the empty list; exactly one `{"role": "assistant",
"content": content}` record is appended; any raised error is caught and
logged. -/
def save_history (parse : String → Option (List HRecord))
    (cid : Except Unit (Option String))
    (getConv : String → Except Unit (Option Conversation))
    (updateOk : Bool) (content : String) : SaveResult :=
  match cid with
  | .error _ => { updateCalled := none, errorLogged := true }
  | .ok none => { updateCalled := none, errorLogged := false }
  | .ok (some c) =>
    match getConv c with
    | .error _ => { updateCalled := none, errorLogged := true }
    | .ok none => { updateCalled := none, errorLogged := false }
    | .ok (some conv) =>
      let history_list : List HRecord :=
        match conv.history with
        | none => []
        | some h => if h == "" then [] else
            match parse h with
            | some l => l
            | none => []
      let new_list := history_list ++ [{ role := "assistant", content := content }]
      { updateCalled := some new_list, errorLogged := !updateOk }

/-- The history list `save_history` reconstructs from a fetched
conversation (`main.py` lines 108–113): empty when the serialized history
is absent, empty-string (falsy), or fails to parse; otherwise the parsed
list. -/
def parsed_history (parse : String → Option (List HRecord))
    (conv : Conversation) : List HRecord :=
  match conv.history with
  | none => []
  | some h => if h == "" then [] else
      match parse h with
      | some l => l
      | none => []

/-- A split function that never matches: every text is returned as the
single part, as `re.split` does when the pattern has no match. -/
def noMatchSplit : String → List String := fun t => [t]

/-- A concrete split function used in counterexamples and witnesses: it
splits the text `"a!b"` into `["a", "b"]` and returns every other text
unsplit, as `re.split("!", ·)` would on these inputs. -/
def exSplit : String → List String :=
  fun t => if t = "a!b" then ["a", "b"] else [t]

variable {α : Type}

theorem strJoin_append (l₁ l₂ : List String) :
    strJoin (l₁ ++ l₂) = strJoin l₁ ++ strJoin l₂ := by
  induction l₁ with
  | nil => simp [strJoin, String.empty_append]
  | cons s r ih => simp [strJoin, ih, String.append_assoc]

theorem strJoin_singleton (s : String) : strJoin [s] = s := by
  simp [strJoin, String.append_empty]

theorem strJoin_filter_ne (l : List String) :
    strJoin (l.filter (fun p => p != "")) = strJoin l := by
  induction l with
  | nil => rfl
  | cons s r ih =>
    by_cases h : s = ""
    · subst h
      simp [strJoin, ih, String.empty_append]
    · simp [strJoin, h, ih]

theorem strJoin_dropLast_getLast (l : List String) (h : l ≠ []) :
    strJoin l.dropLast ++ l.getLast h = strJoin l := by
  induction l with
  | nil => exact absurd rfl h
  | cons s r ih =>
    cases r with
    | nil => simp [strJoin, String.empty_append, String.append_empty]
    | cons t u =>
      have hne : t :: u ≠ [] := List.cons_ne_nil t u
      calc strJoin ((s :: t :: u).dropLast) ++ (s :: t :: u).getLast h
          = (s ++ strJoin ((t :: u).dropLast)) ++ (t :: u).getLast hne := by
            simp [strJoin, List.getLast_cons]
        _ = s ++ (strJoin ((t :: u).dropLast) ++ (t :: u).getLast hne) :=
            String.append_assoc ..
        _ = s ++ strJoin (t :: u) := by rw [ih hne]
        _ = strJoin (s :: t :: u) := rfl

theorem full_text_append (u v : List (Component α)) :
    full_text_for_history (u ++ v) =
      full_text_for_history u ++ full_text_for_history v := by
  simp [full_text_for_history, List.filterMap_append, strJoin_append]

theorem full_text_plain (t : String) :
    full_text_for_history [(Component.plain t : Component α)] = t := by
  simp [full_text_for_history, textOf, strJoin_singleton]

theorem full_text_media (p : α) :
    full_text_for_history [Component.media p] = "" := by
  simp [full_text_for_history, textOf, strJoin]

theorem full_text_nil : full_text_for_history ([] : List (Component α)) = "" := rfl

theorem split_chain_go_eq_segment_spec (s : String → List String)
    (chain : List (Component α)) :
    ∀ (segs : List (List (Component α))) (buf : List (Component α)),
      split_chain_go s segs buf chain = segs ++ segment_spec s buf chain := by
  induction chain with
  | nil =>
    intro segs buf
    by_cases hb : buf.isEmpty <;> simp [split_chain_go, segment_spec, hb]
  | cons c rest ih =>
    intro segs buf
    cases c with
    | media p => simp [split_chain_go, segment_spec, ih]
    | plain t =>
      rcases hp : s t with _ | ⟨p0, _ | ⟨p1, ps⟩⟩
      · simp [split_chain_go, segment_spec, hp, ih]
      · simp [split_chain_go, segment_spec, hp, ih]
      · have hbuf : (if p0 == "" then buf else buf ++ [Component.plain p0])
            = buf ++ (if p0 == "" then [] else [(Component.plain p0 : Component α)]) := by
          by_cases h0 : p0 == "" <;> simp [h0]
        simp only [split_chain_go, segment_spec, hp]
        rw [ih, hbuf]
        by_cases hfa :
            (buf ++ (if p0 == "" then [] else [(Component.plain p0 : Component α)])).isEmpty = true
        · rw [if_pos hfa, if_pos hfa]
          simp [List.append_assoc]
        · rw [if_neg hfa, if_neg hfa]
          simp [List.append_assoc]

/-- C1: for every input chain and split function, the implementation's
`split_chain` coincides with the accumulating-unit algorithm written from
the spec's words (`segmenter_spec`): a text item splitting into more than
one part appends its non-empty first part to the current accumulating
unit, closes that unit out if non-empty, emits each non-empty interior
part as its own singleton unit, and seeds the new accumulating unit with
the non-empty last part; a one-part text item is appended unchanged; a
non-empty accumulating unit is appended as the final unit at the end. -/
theorem c1_segmenter_follows_spec_algorithm (s : String → List String)
    (chain : List (Component α)) :
    split_chain s chain = segmenter_spec s chain := by
  simpa [split_chain, segmenter_spec] using
    split_chain_go_eq_segment_spec s chain [] []

theorem removed_text_nil (s : String → List String) :
    removed_text s ([] : List (Component α)) = "" := rfl

theorem removed_text_media (s : String → List String) (p : α)
    (rest : List (Component α)) :
    removed_text s (Component.media p :: rest) = removed_text s rest := by
  simp [removed_text, strJoin, String.empty_append]

theorem removed_text_plain (s : String → List String) (t : String)
    (rest : List (Component α)) :
    removed_text s (Component.plain t :: rest) =
      strJoin (s t) ++ removed_text s rest := by
  simp [removed_text, strJoin]

theorem units_text_flush (segs : List (List (Component α)))
    (u : List (Component α)) :
    strJoin ((if u.isEmpty = true then segs else segs ++ [u]).map
        full_text_for_history) =
      strJoin (segs.map full_text_for_history) ++ full_text_for_history u := by
  by_cases hb : u.isEmpty = true
  · have hu : u = [] := List.isEmpty_iff.mp hb
    rw [if_pos hb, hu]
    simp [full_text_nil, String.append_empty]
  · rw [if_neg hb]
    simp [List.map_append, strJoin_append, strJoin_singleton, String.append_empty]

theorem full_text_if_plain (b : List (Component α)) (p : String) :
    full_text_for_history (if p == "" then b else b ++ [Component.plain p]) =
      full_text_for_history b ++ p := by
  by_cases h0 : p == ""
  · have hp : p = "" := by simpa using h0
    rw [if_pos h0, hp, String.append_empty]
  · rw [if_neg h0, full_text_append, full_text_plain]

theorem full_text_seed (p : String) :
    full_text_for_history
        (if p == "" then ([] : List (Component α)) else [Component.plain p]) = p := by
  by_cases h0 : p == ""
  · have hp : p = "" := by simpa using h0
    rw [if_pos h0, hp]
    rfl
  · rw [if_neg h0, full_text_plain]

theorem interior_units_text (l : List String) :
    strJoin (((l.filter (fun p => p != "")).map
        (fun p => [(Component.plain p : Component α)])).map full_text_for_history) =
      strJoin l := by
  rw [List.map_map]
  have hm : (full_text_for_history ∘ fun p => [(Component.plain p : Component α)]) =
      fun p => p := by
    funext p
    simp [Function.comp, full_text_plain]
  rw [hm, List.map_id']
  exact strJoin_filter_ne l

theorem split_chain_go_text (s : String → List String)
    (hone : ∀ t p, s t = [p] → p = t) (chain : List (Component α)) :
    ∀ (segs : List (List (Component α))) (buf : List (Component α)),
      strJoin ((split_chain_go s segs buf chain).map full_text_for_history) =
        strJoin (segs.map full_text_for_history) ++ full_text_for_history buf ++
          removed_text s chain := by
  induction chain with
  | nil =>
    intro segs buf
    simp only [split_chain_go]
    rw [units_text_flush, removed_text_nil, String.append_empty]
  | cons c rest ih =>
    intro segs buf
    cases c with
    | media p =>
      simp only [split_chain_go]
      rw [ih, full_text_append, full_text_media, String.append_empty,
        removed_text_media]
    | plain t =>
      rcases hp : s t with _ | ⟨p0, _ | ⟨p1, ps⟩⟩
      · simp only [split_chain_go, hp]
        rw [ih, removed_text_plain, hp]
        simp [strJoin, String.empty_append]
      · have hpt : p0 = t := hone t p0 hp
        simp only [split_chain_go, hp]
        rw [ih, full_text_append, full_text_plain, removed_text_plain, hp, hpt,
          strJoin_singleton]
        simp [String.append_assoc]
      · have hne : (p1 :: ps) ≠ [] := List.cons_ne_nil p1 ps
        simp only [split_chain_go, hp]
        rw [ih, List.map_append, strJoin_append, units_text_flush,
          full_text_if_plain, interior_units_text, full_text_seed,
          removed_text_plain, hp]
        have hsj : strJoin (p0 :: p1 :: ps) =
            p0 ++ (strJoin ((p1 :: ps).dropLast) ++ (p1 :: ps).getLast hne) := by
          rw [strJoin_dropLast_getLast (p1 :: ps) hne]
          rfl
        rw [hsj]
        simp [String.append_assoc]

/-- C2: for any chain and any split function with the `re.split`
single-part property (one part means no match, and the part is the whole
text), concatenating the text of all `Plain` components across all
produced units, in order, equals the concatenation over the input of each
text with its matched separators removed (the join of its split parts):
no text is lost except separators, and none is duplicated. -/
theorem c2_reconstruction (s : String → List String)
    (hone : ∀ t p, s t = [p] → p = t) (chain : List (Component α)) :
    strJoin ((split_chain s chain).map full_text_for_history) =
      removed_text s chain := by
  have h := split_chain_go_text s hone chain [] []
  simpa [split_chain, strJoin, full_text_nil, String.empty_append] using h

/-- The split function `exSplit` returns a single part only when there is no match, and then
the part is the whole input, as `re.split` does. -/
theorem exSplit_one : ∀ t p, exSplit t = [p] → p = t := by
  intro t p h
  by_cases ht : t = "a!b"
  · rw [ht] at h
    simp [exSplit] at h
  · simp [exSplit, ht] at h
    exact h.symm

/-- Witness for C2 at a concrete chain containing a split text, a media
item, and an unsplit text. -/
theorem c2_reconstruction_witness :
    strJoin ((split_chain exSplit
        [Component.plain "a!b", Component.media (0 : Nat),
          Component.plain "c"]).map full_text_for_history) =
      removed_text exSplit
        [Component.plain "a!b", Component.media (0 : Nat), Component.plain "c"] :=
  c2_reconstruction exSplit exSplit_one _

theorem join_flush_media (segs : List (List (Component α)))
    (u : List (Component α)) :
    ((if u.isEmpty = true then segs else segs ++ [u]).flatten).filterMap mediaOf =
      (segs.flatten).filterMap mediaOf ++ u.filterMap mediaOf := by
  by_cases hb : u.isEmpty = true
  · have hu : u = [] := List.isEmpty_iff.mp hb
    rw [if_pos hb, hu]
    simp
  · rw [if_neg hb]
    simp [List.flatten_append, List.filterMap_append]

theorem media_if_plain (b : List (Component α)) (p : String) :
    (if p == "" then b else b ++ [Component.plain p]).filterMap mediaOf =
      b.filterMap mediaOf := by
  by_cases h0 : p == "" <;> simp [h0, List.filterMap_append, mediaOf]

theorem media_seed (p : String) :
    (if p == "" then ([] : List (Component α))
      else [Component.plain p]).filterMap mediaOf = [] := by
  by_cases h0 : p == "" <;> simp [h0, mediaOf]

theorem media_interior (l : List String) :
    ((((l.filter (fun p => p != "")).map
        (fun p => [(Component.plain p : Component α)])).flatten).filterMap mediaOf) = [] := by
  have h : ∀ (l' : List String),
      (((l'.map (fun p => [(Component.plain p : Component α)])).flatten).filterMap mediaOf) = [] := by
    intro l'
    induction l' with
    | nil => rfl
    | cons a b ihb => simp [mediaOf, ihb]
  exact h _

theorem split_chain_go_media_of (s : String → List String)
    (chain : List (Component α)) :
    ∀ (segs : List (List (Component α))) (buf : List (Component α)),
      ((split_chain_go s segs buf chain).flatten).filterMap mediaOf =
        (segs.flatten).filterMap mediaOf ++ buf.filterMap mediaOf ++
          chain.filterMap mediaOf := by
  induction chain with
  | nil =>
    intro segs buf
    simp only [split_chain_go]
    rw [join_flush_media]
    simp
  | cons c rest ih =>
    intro segs buf
    cases c with
    | media p =>
      simp only [split_chain_go]
      rw [ih]
      simp [List.filterMap_append, mediaOf, List.append_assoc]
    | plain t =>
      rcases hp : s t with _ | ⟨p0, _ | ⟨p1, ps⟩⟩
      · simp only [split_chain_go, hp]
        rw [ih]
        simp [mediaOf]
      · simp only [split_chain_go, hp]
        rw [ih]
        simp [List.filterMap_append, mediaOf]
      · simp only [split_chain_go, hp]
        rw [ih, List.flatten_append, List.filterMap_append, join_flush_media,
          media_if_plain, media_interior, media_seed]
        simp [mediaOf]

theorem split_chain_go_all_media (s : String → List String) :
    ∀ (chain : List (Component α)), (∀ c ∈ chain, textOf c = none) →
      ∀ (segs : List (List (Component α))) (buf : List (Component α)),
        split_chain_go s segs buf chain =
          if (buf ++ chain).isEmpty = true then segs else segs ++ [buf ++ chain] := by
  intro chain
  induction chain with
  | nil =>
    intro _ segs buf
    rw [List.append_nil]
    simp [split_chain_go]
  | cons c rest ih =>
    intro hm segs buf
    cases c with
    | plain t => exact absurd (hm _ (List.mem_cons_self _ _)) (by simp [textOf])
    | media p =>
      have hm' : ∀ c ∈ rest, textOf c = none :=
        fun c hc => hm c (List.mem_cons_of_mem _ hc)
      simp only [split_chain_go]
      rw [ih hm']
      simp [List.append_assoc]

theorem flatten_flush (segs : List (List (Component α)))
    (u : List (Component α)) :
    (if u.isEmpty = true then segs else segs ++ [u]).flatten =
      segs.flatten ++ u := by
  by_cases hb : u.isEmpty = true
  · have hu : u = [] := List.isEmpty_iff.mp hb
    rw [if_pos hb, hu, List.append_nil]
  · rw [if_neg hb]
    simp [List.flatten_append]

theorem flatten_singletons (l : List String) :
    ((l.map (fun p => [(Component.plain p : Component α)])).flatten) =
      l.map (fun p => Component.plain p) := by
  induction l with
  | nil => rfl
  | cons a b ih => simp [ih]

theorem filter_ne_single (p : String) :
    ([p].filter (fun q => q != "")) = if p == "" then [] else [p] := by
  cases h0 : p == "" with
  | true => simp [List.filter_cons, bne, h0]
  | false => simp [List.filter_cons, bne, h0]

theorem filter_ne_decomp (p0 p1 : String) (ps : List String) :
    (p0 :: p1 :: ps).filter (fun p => p != "") =
      (if p0 == "" then [] else [p0]) ++
      ((p1 :: ps).dropLast.filter (fun p => p != "")) ++
      (if (p1 :: ps).getLast (List.cons_ne_nil p1 ps) == "" then []
        else [(p1 :: ps).getLast (List.cons_ne_nil p1 ps)]) := by
  have hne : (p1 :: ps) ≠ [] := List.cons_ne_nil p1 ps
  have hdec : (p1 :: ps).dropLast ++ [(p1 :: ps).getLast hne] = p1 :: ps :=
    List.dropLast_append_getLast hne
  have hsplit : (p1 :: ps).filter (fun p => p != "") =
      ((p1 :: ps).dropLast.filter (fun p => p != "")) ++
      (if (p1 :: ps).getLast hne == "" then [] else [(p1 :: ps).getLast hne]) := by
    calc (p1 :: ps).filter (fun p => p != "")
        = (((p1 :: ps).dropLast ++ [(p1 :: ps).getLast hne]).filter
            (fun p => p != "")) := by rw [hdec]
      _ = ((p1 :: ps).dropLast.filter (fun p => p != "")) ++
            ([(p1 :: ps).getLast hne].filter (fun p => p != "")) :=
          List.filter_append ..
      _ = _ := by rw [filter_ne_single]
  rw [List.filter_cons]
  cases h0 : p0 == "" with
  | true =>
    rw [hsplit]
    simp [bne, h0]
  | false =>
    rw [hsplit]
    simp [bne, h0]

theorem split_chain_go_flatten (s : String → List String)
    (chain : List (Component α)) :
    ∀ (segs : List (List (Component α))) (buf : List (Component α)),
      (split_chain_go s segs buf chain).flatten =
        segs.flatten ++ buf ++ (chain.map (expand_item s)).flatten := by
  induction chain with
  | nil =>
    intro segs buf
    simp only [split_chain_go]
    rw [flatten_flush]
    simp
  | cons c rest ih =>
    intro segs buf
    cases c with
    | media p =>
      simp only [split_chain_go]
      rw [ih]
      simp only [List.map_cons, List.flatten_cons, expand_item]
      simp [List.append_assoc]
    | plain t =>
      rcases hp : s t with _ | ⟨p0, _ | ⟨p1, ps⟩⟩
      · simp only [split_chain_go, hp]
        rw [ih]
        simp only [List.map_cons, List.flatten_cons, expand_item, hp]
        simp
      · simp only [split_chain_go, hp]
        rw [ih]
        simp only [List.map_cons, List.flatten_cons, expand_item, hp]
        simp [List.append_assoc]
      · have hexp : expand_item s (Component.plain t : Component α) =
            ((p0 :: p1 :: ps).filter (fun p => p != "")).map
              (fun p => Component.plain p) := by
          simp only [expand_item, hp]
        have hbuf : (if p0 == "" then buf else buf ++ [Component.plain p0]) =
            buf ++ (if p0 == "" then [] else [(Component.plain p0 : Component α)]) := by
          by_cases h0 : (p0 == "") = true <;> simp [h0]
        have hmap0 : ((if p0 == "" then ([] : List String) else [p0]).map
            (fun p => (Component.plain p : Component α))) =
            (if p0 == "" then [] else [Component.plain p0]) := by
          by_cases h0 : (p0 == "") = true <;> simp [h0]
        have hmapL : ((if (p1 :: ps).getLast (List.cons_ne_nil p1 ps) == ""
              then ([] : List String)
              else [(p1 :: ps).getLast (List.cons_ne_nil p1 ps)]).map
            (fun p => (Component.plain p : Component α))) =
            (if (p1 :: ps).getLast (List.cons_ne_nil p1 ps) == "" then []
              else [Component.plain ((p1 :: ps).getLast (List.cons_ne_nil p1 ps))]) := by
          by_cases hl : ((p1 :: ps).getLast (List.cons_ne_nil p1 ps) == "") = true <;>
            simp [hl]
        simp only [split_chain_go, hp]
        rw [ih, List.flatten_append, flatten_flush, flatten_singletons]
        simp only [List.map_cons, List.flatten_cons]
        rw [hexp, filter_ne_decomp, List.map_append, List.map_append, hmap0, hmapL, hbuf]
        simp [List.append_assoc]

/-- C6 (amended): for every chain and split function, flattening the
produced units yields exactly the input sequence with every item expanded
in place (`expand_item`: media items stay themselves, one-part text items
stay themselves, multi-part text items are replaced by their non-empty
parts in order) — so every media item of the input appears in exactly one
unit, is never split, and is never reordered relative to the surrounding
items' content; in particular the media items of the flattened output
equal those of the input, in order and with multiplicity; and a NON-EMPTY
chain with no text items yields exactly one unit containing all original
items.  (The empty chain yields zero units, which is the one departure
from the claim.) -/
theorem c6_media_preservation (s : String → List String)
    (chain : List (Component α)) :
    (split_chain s chain).flatten = (chain.map (expand_item s)).flatten ∧
    ((split_chain s chain).flatten).filterMap mediaOf = chain.filterMap mediaOf ∧
    (chain ≠ [] → (∀ c ∈ chain, textOf c = none) →
      split_chain s chain = [chain]) := by
  refine ⟨?_, ?_, ?_⟩
  · have h := split_chain_go_flatten s chain [] []
    simpa [split_chain] using h
  · have h := split_chain_go_media_of s chain [] []
    simpa [split_chain] using h
  · intro hne hm
    have h := split_chain_go_all_media s chain hm [] []
    rw [split_chain, h]
    have : chain.isEmpty = false := by
      cases chain with
      | nil => exact absurd rfl hne
      | cons a b => rfl
    simp [this]

/-- C6 counterexample: the empty chain contains no text items, yet the
segmenter produces zero delivery units, not exactly one — refuting the
claim's "an input with no text items yields exactly one DeliveryUnit
containing all original items" at the empty input. -/
theorem c6_empty_input_cex :
    (split_chain noMatchSplit ([] : List (Component Nat))).length ≠ 1 := by decide

/-- Witness for C6 at a concrete non-empty all-media chain. -/
theorem c6_media_preservation_witness :
    split_chain noMatchSplit [Component.media (0 : Nat), Component.media 1] =
      [[Component.media 0, Component.media 1]] :=
  (c6_media_preservation noMatchSplit
    [Component.media (0 : Nat), Component.media 1]).2.2 (by decide) (by decide)

theorem split_chain_go_units_ne (s : String → List String) :
    ∀ (chain : List (Component α)) (segs : List (List (Component α)))
      (buf : List (Component α)), (∀ u ∈ segs, u ≠ []) →
      ∀ u ∈ split_chain_go s segs buf chain, u ≠ [] := by
  intro chain
  induction chain with
  | nil =>
    intro segs buf hs u hu
    simp only [split_chain_go] at hu
    by_cases hb : buf.isEmpty = true
    · rw [if_pos hb] at hu
      exact hs u hu
    · rw [if_neg hb] at hu
      rcases List.mem_append.mp hu with h | h
      · exact hs u h
      · have hub : u = buf := by simpa using h
        subst hub
        intro hnil
        exact hb (by simp [hnil])
  | cons c rest ih =>
    intro segs buf hs u hu
    cases c with
    | media p =>
      simp only [split_chain_go] at hu
      exact ih segs _ hs u hu
    | plain t =>
      rcases hp : s t with _ | ⟨p0, _ | ⟨p1, ps⟩⟩
      · simp only [split_chain_go, hp] at hu
        exact ih segs buf hs u hu
      · simp only [split_chain_go, hp] at hu
        exact ih segs _ hs u hu
      · simp only [split_chain_go, hp] at hu
        refine ih _ _ ?_ u hu
        intro v hv
        rcases List.mem_append.mp hv with h | h
        · by_cases hb :
              (if p0 == "" then buf else buf ++ [Component.plain p0]).isEmpty = true
          · rw [if_pos hb] at h
            exact hs v h
          · rw [if_neg hb] at h
            rcases List.mem_append.mp h with h2 | h2
            · exact hs v h2
            · have hv2 : v = if p0 == "" then buf else buf ++ [Component.plain p0] :=
                List.mem_singleton.mp h2
              subst hv2
              intro hnil
              exact hb (by rw [hnil]; rfl)
        · rcases List.mem_map.mp h with ⟨p, _, hpv⟩
          subst hpv
          exact List.cons_ne_nil _ _

theorem split_chain_go_pred (s : String → List String) (P : Component α → Prop)
    (hP : ∀ p : String, p ≠ "" → P (Component.plain p)) :
    ∀ (chain : List (Component α)) (segs : List (List (Component α)))
      (buf : List (Component α)),
      (∀ u ∈ segs, ∀ c ∈ u, P c) → (∀ c ∈ buf, P c) → (∀ c ∈ chain, P c) →
      ∀ u ∈ split_chain_go s segs buf chain, ∀ c ∈ u, P c := by
  intro chain
  induction chain with
  | nil =>
    intro segs buf hs hb _ u hu
    simp only [split_chain_go] at hu
    by_cases he : buf.isEmpty = true
    · rw [if_pos he] at hu
      exact hs u hu
    · rw [if_neg he] at hu
      rcases List.mem_append.mp hu with h | h
      · exact hs u h
      · have hub : u = buf := by simpa using h
        subst hub
        exact hb
  | cons c rest ih =>
    intro segs buf hs hb hc u hu
    have hcr : ∀ d ∈ rest, P d :=
      fun d hd => hc d (List.mem_cons_of_mem _ hd)
    cases c with
    | media p =>
      simp only [split_chain_go] at hu
      refine ih segs _ hs ?_ hcr u hu
      intro d hd
      rcases List.mem_append.mp hd with h | h
      · exact hb d h
      · have : d = Component.media p := by simpa using h
        subst this
        exact hc _ (List.mem_cons_self _ _)
    | plain t =>
      have hkt : P (Component.plain t : Component α) :=
        hc _ (List.mem_cons_self _ _)
      rcases hp : s t with _ | ⟨p0, _ | ⟨p1, ps⟩⟩
      · simp only [split_chain_go, hp] at hu
        exact ih segs buf hs hb hcr u hu
      · simp only [split_chain_go, hp] at hu
        refine ih segs _ hs ?_ hcr u hu
        intro d hd
        rcases List.mem_append.mp hd with h | h
        · exact hb d h
        · have : d = Component.plain t := by simpa using h
          subst this
          exact hkt
      · simp only [split_chain_go, hp] at hu
        have hb1 : ∀ d ∈ (if p0 == "" then buf else buf ++ [Component.plain p0]),
            P d := by
          intro d hd
          by_cases h0 : p0 == ""
          · rw [if_pos h0] at hd
            exact hb d hd
          · rw [if_neg h0] at hd
            rcases List.mem_append.mp hd with h2 | h2
            · exact hb d h2
            · have : d = Component.plain p0 := by simpa using h2
              subst this
              exact hP p0 (by simpa using h0)
        refine ih _ _ ?_ ?_ hcr u hu
        · intro v hv
          rcases List.mem_append.mp hv with h | h
          · by_cases he :
                (if p0 == "" then buf else buf ++ [Component.plain p0]).isEmpty = true
            · rw [if_pos he] at h
              exact hs v h
            · rw [if_neg he] at h
              rcases List.mem_append.mp h with h2 | h2
              · exact hs v h2
              · have hv2 : v = if p0 == "" then buf else buf ++ [Component.plain p0] :=
                  List.mem_singleton.mp h2
                subst hv2
                exact hb1
          · rcases List.mem_map.mp h with ⟨p, hpmem, hpv⟩
            subst hpv
            intro d hd
            have : d = Component.plain p := by simpa using hd
            subst this
            have hpne := (List.mem_filter.mp hpmem).2
            exact hP p (by simpa using hpne)
        · intro d hd
          by_cases hl : ((p1 :: ps).getLast (List.cons_ne_nil p1 ps)) == ""
          · rw [if_pos hl] at hd
            simp at hd
          · rw [if_neg hl] at hd
            have : d = Component.plain ((p1 :: ps).getLast (List.cons_ne_nil p1 ps)) := by
              simpa using hd
            subst this
            exact hP _ (by simpa using hl)

theorem keep_of_mem_clean_if (c : Component α) (t' : String)
    (h : c ∈ (if t' == "" then ([] : List (Component α)) else [Component.plain t'])) :
    keep_item c = true := by
  by_cases h0 : t' == ""
  · rw [if_pos h0] at h
    simp at h
  · rw [if_neg h0] at h
    have hct : c = Component.plain t' := List.mem_singleton.mp h
    subst hct
    simpa [keep_item] using h0

theorem cleaned_chain_keep (cp : Option (String → String)) :
    ∀ (chain : List (Component α)) (c : Component α),
      c ∈ cleaned_chain cp chain → keep_item c = true := by
  intro chain
  induction chain with
  | nil =>
    intro c hc
    simp [cleaned_chain] at hc
  | cons d rest ih =>
    intro c hc
    cases d with
    | media p =>
      simp only [cleaned_chain] at hc
      rcases List.mem_cons.mp hc with h | h
      · subst h
        rfl
      · exact ih c h
    | plain t =>
      simp only [cleaned_chain] at hc
      rcases List.mem_append.mp hc with h | h
      · exact keep_of_mem_clean_if c _ h
      · exact ih c h

/-- C7 (amended): for every chain and split function, no produced
delivery unit is empty; and provided no input text item has empty text —
which holds in particular for the cleaner's output, so for every unit the
plugin actually sends — no text item inside any produced unit has
empty-string text.  Moreover, unconditionally, every component of every
produced unit either has non-empty text (or is media) or is one of the
input's own components passed through unchanged — an empty-text text item
can appear in a unit only by already being in the input.  (A chain that
already contains an empty-text `Plain` is passed through into a unit
unchanged, which is the one departure from the claim as universally
stated.) -/
theorem c7_no_empty_units (s : String → List String) (chain : List (Component α)) :
    (∀ u ∈ split_chain s chain, u ≠ []) ∧
    ((∀ c ∈ chain, keep_item c = true) →
      ∀ u ∈ split_chain s chain, ∀ c ∈ u, keep_item c = true) ∧
    (∀ (cp : Option (String → String)) (u : List (Component α)),
      u ∈ (on_decorating_result cp s chain).sent →
        u ≠ [] ∧ ∀ c ∈ u, keep_item c = true) ∧
    (∀ u ∈ split_chain s chain, ∀ c ∈ u, keep_item c = true ∨ c ∈ chain) := by
  have hpred : ∀ (chain0 : List (Component α)),
      ∀ u ∈ split_chain s chain0, ∀ c ∈ u, keep_item c = true ∨ c ∈ chain0 := by
    intro chain0
    exact split_chain_go_pred s (fun c => keep_item c = true ∨ c ∈ chain0)
      (fun p hp => Or.inl (by simpa [keep_item] using hp)) chain0 [] []
      (by simp) (by simp) (fun c hc => Or.inr hc)
  refine ⟨?_, ?_, ?_, hpred chain⟩
  · intro u hu
    exact split_chain_go_units_ne s chain [] [] (by simp) u hu
  · intro hk u hu c hc
    rcases hpred chain u hu c hc with h | h
    · exact h
    · exact hk c h
  · intro cp u hu
    simp only [on_decorating_result] at hu
    by_cases hce : chain.isEmpty = true
    · rw [if_pos hce] at hu
      simp [pass_noop] at hu
    · rw [if_neg hce] at hu
      by_cases hcond : (split_chain s (cleaned_chain cp chain)).length ≤ 1 ∧
          cp.isSome = false
      · rw [if_pos hcond] at hu
        simp [pass_noop] at hu
      · rw [if_neg hcond] at hu
        have hu' : u ∈ (split_chain s (cleaned_chain cp chain)).filter
            (fun v => !v.isEmpty) := hu
        have hmem := List.mem_filter.mp hu'
        constructor
        · exact split_chain_go_units_ne s (cleaned_chain cp chain) [] []
            (by simp) u hmem.1
        · intro c hc
          rcases hpred (cleaned_chain cp chain) u hmem.1 c hc with h | h
          · exact h
          · exact cleaned_chain_keep cp chain c h

/-- C7 counterexample: on the input consisting of a single `Plain` with
empty text and a split pattern with no match, the segmenter returns that
empty-text item inside a unit, refuting "no TextItem inside any produced
DeliveryUnit has empty-string text" as universally stated. -/
theorem c7_empty_text_item_cex :
    split_chain noMatchSplit [(Component.plain "" : Component Nat)] =
      [[Component.plain ""]] ∧
    keep_item ((Component.plain "" : Component Nat)) = false := by decide

/-- Witness for C7 at a concrete chain that actually splits. -/
theorem c7_no_empty_units_witness :
    ([Component.plain "a"] ≠ ([] : List (Component Nat))) ∧
    keep_item (Component.plain "b" : Component Nat) = true :=
  ⟨(c7_no_empty_units exSplit [Component.plain "a!b"]).1
      [Component.plain "a"] (by decide),
   (c7_no_empty_units exSplit [Component.plain "a!b"]).2.1 (by decide)
      [Component.plain "b"] (by decide) (Component.plain "b") (by decide)⟩

theorem clean_if_eq_filter_if (t' : String) :
    (if t' == "" then ([] : List (Component α)) else [Component.plain t']) =
      if keep_item (Component.plain t' : Component α) = true
        then [Component.plain t'] else [] := by
  cases hb : t' == "" with
  | false =>
    have hk : keep_item (Component.plain t' : Component α) = true := by
      simp [keep_item, bne, hb]
    rw [if_neg (show ¬ (false = true) by simp), if_pos hk]
  | true =>
    have hk : keep_item (Component.plain t' : Component α) = false := by
      simp [keep_item, bne, hb]
    rw [if_pos (show true = true from rfl), if_neg (by simp [hk])]

theorem cleaned_chain_eq_filter (cp : Option (String → String)) :
    ∀ (chain : List (Component α)),
      cleaned_chain cp chain = (chain.map (apply_clean cp)).filter keep_item := by
  intro chain
  induction chain with
  | nil => rfl
  | cons d rest ih =>
    cases d with
    | media p =>
      simp only [cleaned_chain, List.map_cons, apply_clean, List.filter_cons]
      rw [ih]
      rfl
    | plain t =>
      simp only [cleaned_chain, List.map_cons, apply_clean, List.filter_cons]
      rw [ih, clean_if_eq_filter_if]
      generalize (match cp with | some f => f t | none => t) = t'
      by_cases hk : keep_item (Component.plain t' : Component α) = true
      · rw [if_pos hk, if_pos hk]
        rfl
      · rw [if_neg hk, if_neg hk]
        rfl

theorem media_clean_if (t' : String) :
    ((if t' == "" then ([] : List (Component α))
      else [Component.plain t']).filterMap mediaOf) = [] := by
  by_cases h0 : t' == "" <;> simp [h0, mediaOf]

theorem cleaned_chain_media (cp : Option (String → String)) :
    ∀ (chain : List (Component α)),
      (cleaned_chain cp chain).filterMap mediaOf = chain.filterMap mediaOf := by
  intro chain
  induction chain with
  | nil => rfl
  | cons d rest ih =>
    cases d with
    | media p =>
      simp only [cleaned_chain]
      simp [mediaOf, ih]
    | plain t =>
      simp only [cleaned_chain, List.filterMap_append]
      rw [ih, media_clean_if]
      simp [mediaOf]

theorem cleaned_chain_none_keep :
    ∀ (chain : List (Component α)), (∀ c ∈ chain, keep_item c = true) →
      cleaned_chain none chain = chain := by
  intro chain
  induction chain with
  | nil =>
    intro _
    rfl
  | cons d rest ih =>
    intro hk
    have hr : ∀ c ∈ rest, keep_item c = true :=
      fun c hc => hk c (List.mem_cons_of_mem _ hc)
    cases d with
    | media p =>
      simp only [cleaned_chain]
      rw [ih hr]
    | plain t =>
      have hkt : keep_item (Component.plain t : Component α) = true :=
        hk _ (List.mem_cons_self _ _)
      have h0 : ¬ ((t == "") = true) := by
        simp only [keep_item, bne] at hkt
        simp [Bool.not_eq_true] at hkt
        simp [hkt]
      simp only [cleaned_chain]
      rw [if_neg h0, ih hr]
      rfl

/-- C5 (amended): the cleaner equals "apply the clean substitution to
every text item, then drop every component whose text became (or already
was) empty": with a non-empty clean pattern all matches are removed
globally from each text (the substitution `f` models the single global
`re.sub` pass) and emptied items are omitted; media items pass through
unchanged in their original relative order; and with an empty clean
pattern it is a no-op exactly on chains with no empty-text `Plain` —
a `Plain` whose text is already empty is dropped even then, which is the
one departure from the claim. -/
theorem c5_cleaner (cp : Option (String → String)) (chain : List (Component α)) :
    cleaned_chain cp chain = (chain.map (apply_clean cp)).filter keep_item ∧
    (cleaned_chain cp chain).filterMap mediaOf = chain.filterMap mediaOf ∧
    ((∀ c ∈ chain, keep_item c = true) → cleaned_chain none chain = chain) :=
  ⟨cleaned_chain_eq_filter cp chain, cleaned_chain_media cp chain,
    cleaned_chain_none_keep chain⟩

/-- C5 counterexample: with the empty clean pattern (clean disabled) the
cleaner still drops a `Plain` whose text is the empty string, so the
output differs from the input — refuting "with an empty clean pattern the
Cleaner is a no-op (output equals input)" as universally stated. -/
theorem c5_empty_pattern_not_noop_cex :
    cleaned_chain none [(Component.plain "" : Component Nat)] = [] ∧
    cleaned_chain none [(Component.plain "" : Component Nat)] ≠
      [(Component.plain "" : Component Nat)] := by decide

/-- Witness for C5 on a chain with no empty-text item. -/
theorem c5_cleaner_witness :
    cleaned_chain none [Component.plain "a", Component.media (0 : Nat)] =
      [Component.plain "a", Component.media 0] :=
  (c5_cleaner none [Component.plain "a", Component.media (0 : Nat)]).2.2 (by decide)

/-- C3 (amended): for a pass over a NON-EMPTY reply chain, the dispatch
decision is the claimed biconditional — the pass is the no-op result
(nothing saved, nothing sent, chain untouched, event not stopped) exactly
when the produced unit count is at most 1 and no clean pattern is
configured; otherwise the pass captures the pre-clean full text for
history, sends every non-empty unit, clears the original chain and stops
event propagation.  (An empty reply chain returns early and is always a
no-op, even when a clean pattern is configured — the one departure from
the claim as universally stated.) -/
theorem c3_dispatch_decision (cp : Option (String → String))
    (s : String → List String) (chain : List (Component α)) (h : chain ≠ []) :
    ((on_decorating_result cp s chain = pass_noop) ↔
      ((split_chain s (cleaned_chain cp chain)).length ≤ 1 ∧ cp.isSome = false)) ∧
    (¬((split_chain s (cleaned_chain cp chain)).length ≤ 1 ∧ cp.isSome = false) →
      (on_decorating_result cp s chain).savedHistory =
          some (full_text_for_history chain) ∧
      (on_decorating_result cp s chain).sent =
          (split_chain s (cleaned_chain cp chain)).filter (fun u => !u.isEmpty) ∧
      (on_decorating_result cp s chain).cleared = true ∧
      (on_decorating_result cp s chain).stopped = true) := by
  have hni : ¬ (chain.isEmpty = true) := by
    cases chain with
    | nil => exact absurd rfl h
    | cons a b => simp
  have hstep : on_decorating_result cp s chain =
      (if (split_chain s (cleaned_chain cp chain)).length ≤ 1 ∧ cp.isSome = false
        then pass_noop
        else { savedHistory := some (full_text_for_history chain)
               sent := (split_chain s (cleaned_chain cp chain)).filter
                 (fun u => !u.isEmpty)
               cleared := true
               stopped := true }) := by
    simp only [on_decorating_result]
    rw [if_neg hni]
  by_cases hcond : (split_chain s (cleaned_chain cp chain)).length ≤ 1 ∧
      cp.isSome = false
  · rw [if_pos hcond] at hstep
    exact ⟨⟨fun _ => hcond, fun _ => hstep⟩, fun hx => absurd hcond hx⟩
  · rw [if_neg hcond] at hstep
    refine ⟨⟨fun hnoop => ?_, fun hx => absurd hx hcond⟩, fun _ => ?_⟩
    · rw [hstep] at hnoop
      have hcl := congrArg PassResult.cleared hnoop
      simp [pass_noop] at hcl
    · rw [hstep]
      exact ⟨rfl, rfl, rfl, rfl⟩

/-- C3 counterexample: on the empty reply chain with a non-empty clean
pattern configured, the produced unit count is 0 ≤ 1 but cleaning WAS
applied, so the claimed biconditional requires a take-over (history,
delivery, clear, stop); the code's early guard (`if not result.chain:
return`) makes the pass a no-op instead. -/
theorem c3_empty_chain_cex :
    on_decorating_result (some (fun t => t)) noMatchSplit
        ([] : List (Component Nat)) = pass_noop ∧
    (some (fun t : String => t)).isSome = true ∧
    (pass_noop : PassResult Nat).stopped = false ∧
    (pass_noop : PassResult Nat).cleared = false :=
  ⟨rfl, rfl, rfl, rfl⟩

/-- Witness for C3 on a non-empty chain whose text splits into two units. -/
theorem c3_dispatch_decision_witness :
    (on_decorating_result (none : Option (String → String)) exSplit
        [(Component.plain "a!b" : Component Nat)]).stopped = true :=
  ((c3_dispatch_decision none exSplit [Component.plain "a!b"]
      (by decide)).2 (by decide)).2.2.2

/-- C9 (amended): the cleaning flag of the dispatch decision depends only
on the configuration: whenever a non-empty clean pattern is configured —
whatever its substitution does, even if it changes nothing and no split
occurs — a pass over a NON-EMPTY reply chain always takes over: it saves
the pre-clean full text, sends the non-empty units, clears the original
chain and stops event propagation.  (On an empty reply chain the early
guard returns without taking over.) -/
theorem c9_clean_flag_takeover (f : String → String) (s : String → List String)
    (chain : List (Component α)) (h : chain ≠ []) :
    (on_decorating_result (some f) s chain).savedHistory =
        some (full_text_for_history chain) ∧
    (on_decorating_result (some f) s chain).sent =
        (split_chain s (cleaned_chain (some f) chain)).filter (fun u => !u.isEmpty) ∧
    (on_decorating_result (some f) s chain).cleared = true ∧
    (on_decorating_result (some f) s chain).stopped = true := by
  have hni : ¬ (chain.isEmpty = true) := by
    cases chain with
    | nil => exact absurd rfl h
    | cons a b => simp
  have hcond : ¬ ((split_chain s (cleaned_chain (some f) chain)).length ≤ 1 ∧
      (some f).isSome = false) := by
    intro hx
    simp at hx
  have hstep : on_decorating_result (some f) s chain =
      { savedHistory := some (full_text_for_history chain)
        sent := (split_chain s (cleaned_chain (some f) chain)).filter
          (fun u => !u.isEmpty)
        cleared := true
        stopped := true } := by
    simp only [on_decorating_result]
    rw [if_neg hni, if_neg hcond]
  rw [hstep]
  exact ⟨rfl, rfl, rfl, rfl⟩

/-- C9 counterexample: a non-empty clean pattern is configured, yet on the
empty reply chain the pass does not take over (the early guard returns
first), refuting "whenever a non-empty clean pattern is configured, the
system takes over delivery" as universally stated. -/
theorem c9_empty_chain_noop_cex :
    on_decorating_result (some (fun _ => "")) noMatchSplit
        ([] : List (Component Nat)) = pass_noop ∧
    (pass_noop : PassResult Nat).stopped = false :=
  ⟨rfl, rfl⟩

/-- Witness for C9: clean pattern configured with the identity
substitution (it matches nothing) and a split pattern with no match — the
pass still takes over. -/
theorem c9_clean_flag_takeover_witness :
    (on_decorating_result (some (fun t => t)) noMatchSplit
        [(Component.plain "hello" : Component Nat)]).stopped = true :=
  (c9_clean_flag_takeover (fun t => t) noMatchSplit
    [Component.plain "hello"] (by decide)).2.2.2

theorem deliver_loop_go_attempt (d : Nat → Bool) (n : Nat) :
    ∀ (l : List (List (Component α))) (k i : Nat) (h : i < l.length),
      (l.get ⟨i, h⟩).isEmpty = false →
      Ev.attempt (k + i) ∈ deliver_loop_go d n k l := by
  intro l
  induction l with
  | nil =>
    intro k i h
    exact absurd h (by simp)
  | cons seg rest ih =>
    intro k i h hne
    cases i with
    | zero =>
      have hseg : seg.isEmpty = false := hne
      refine List.mem_append.mpr (Or.inl ?_)
      rw [if_neg (by simp [hseg])]
      by_cases hd : d k = true
      · rw [if_pos hd]
        exact List.mem_cons_self _ _
      · rw [if_neg hd]
        exact List.mem_cons_self _ _
    | succ j =>
      have h' : j < rest.length := by simpa using h
      have hne' : (rest.get ⟨j, h'⟩).isEmpty = false := hne
      have hmem := ih (k + 1) j h' hne'
      have harith : k + 1 + j = k + (j + 1) := by omega
      rw [harith] at hmem
      exact List.mem_append.mpr (Or.inr hmem)

theorem deliver_loop_go_logFail (d : Nat → Bool) (n : Nat) :
    ∀ (l : List (List (Component α))) (k i : Nat) (h : i < l.length),
      (l.get ⟨i, h⟩).isEmpty = false → d (k + i) = false →
      Ev.logFail (k + i) ∈ deliver_loop_go d n k l := by
  intro l
  induction l with
  | nil =>
    intro k i h
    exact absurd h (by simp)
  | cons seg rest ih =>
    intro k i h hne hd
    cases i with
    | zero =>
      have hseg : seg.isEmpty = false := hne
      refine List.mem_append.mpr (Or.inl ?_)
      rw [if_neg (by simp [hseg])]
      rw [Nat.add_zero] at hd
      rw [if_neg (by simp [hd])]
      exact List.mem_cons_of_mem _ (List.mem_cons_self _ _)
    | succ j =>
      have h' : j < rest.length := by simpa using h
      have hne' : (rest.get ⟨j, h'⟩).isEmpty = false := hne
      have harith : k + (j + 1) = k + 1 + j := by omega
      rw [harith] at hd ⊢
      exact List.mem_append.mpr (Or.inr (ih (k + 1) j h' hne' hd))

theorem deliver_loop_go_sleep (d : Nat → Bool) (n : Nat) :
    ∀ (l : List (List (Component α))) (k : Nat),
      (Ev.sleep ∈ deliver_loop_go d n k l ↔
        ∃ i, ∃ h : i < l.length, (l.get ⟨i, h⟩).isEmpty = false ∧
          d (k + i) = true ∧ k + i < n - 1) := by
  intro l
  induction l with
  | nil =>
    intro k
    simp [deliver_loop_go]
  | cons seg rest ih =>
    intro k
    simp only [deliver_loop_go, List.mem_append]
    constructor
    · rintro (hb | hrest)
      · by_cases he : seg.isEmpty = true
        · rw [if_pos he] at hb
          simp at hb
        · rw [if_neg he] at hb
          by_cases hd : d k = true
          · rw [if_pos hd] at hb
            rcases List.mem_cons.mp hb with hx | hx
            · exact absurd hx (by simp)
            · by_cases hk : k < n - 1
              · refine ⟨0, by simp, ?_, ?_, ?_⟩
                · simpa using Bool.eq_false_iff.mpr (fun hz => he hz)
                · rw [Nat.add_zero]
                  exact hd
                · rw [Nat.add_zero]
                  exact hk
              · rw [if_neg hk] at hx
                simp at hx
          · rw [if_neg hd] at hb
            simp at hb
      · rcases (ih (k + 1)).mp hrest with ⟨i, hlen, hne, hd, hlt⟩
        refine ⟨i + 1, by simpa using hlen, hne, ?_, ?_⟩
        · have harith : k + (i + 1) = k + 1 + i := by omega
          rw [harith]
          exact hd
        · omega
    · rintro ⟨i, hlen, hne, hd, hlt⟩
      cases i with
      | zero =>
        left
        have hseg : seg.isEmpty = false := hne
        rw [if_neg (by simp [hseg])]
        rw [Nat.add_zero] at hd hlt
        rw [if_pos hd, if_pos hlt]
        exact List.mem_cons_of_mem _ (List.mem_cons_self _ _)
      | succ j =>
        right
        have h' : j < rest.length := by simpa using hlen
        refine (ih (k + 1)).mpr ⟨j, h', hne, ?_, by omega⟩
        have harith : k + 1 + j = k + (j + 1) := by omega
        rw [harith]
        exact hd

/-- C4 (amended): in the sequential delivery loop, every non-empty unit
is attempted regardless of earlier failures, and a failed unit's failure
is logged and does not abort the loop; however the inter-unit delay
(`asyncio.sleep` inside the same `try`, after the send) occurs exactly
when some non-final non-empty unit's delivery SUCCEEDED — when a unit's
delivery fails, the delay before the next unit is skipped, contrary to
the claim's "the delay is still honored". -/
theorem c4_delivery_loop (d : Nat → Bool) (segs : List (List (Component α))) :
    (∀ (i : Nat) (h : i < segs.length), (segs.get ⟨i, h⟩).isEmpty = false →
      Ev.attempt i ∈ deliver_loop d segs) ∧
    (∀ (i : Nat) (h : i < segs.length), (segs.get ⟨i, h⟩).isEmpty = false →
      d i = false → Ev.logFail i ∈ deliver_loop d segs) ∧
    (Ev.sleep ∈ deliver_loop d segs ↔
      ∃ i, ∃ h : i < segs.length, (segs.get ⟨i, h⟩).isEmpty = false ∧
        d i = true ∧ i < segs.length - 1) := by
  refine ⟨?_, ?_, ?_⟩
  · intro i h hne
    have hmem := deliver_loop_go_attempt d segs.length segs 0 i h hne
    rw [Nat.zero_add] at hmem
    exact hmem
  · intro i h hne hd
    have hd0 : d (0 + i) = false := by
      rw [Nat.zero_add]
      exact hd
    have hmem := deliver_loop_go_logFail d segs.length segs 0 i h hne hd0
    rw [Nat.zero_add] at hmem
    exact hmem
  · have hiff := deliver_loop_go_sleep d segs.length segs 0
    simpa [Nat.zero_add] using hiff

/-- C4 counterexample: two non-empty units, both deliveries fail.  The
failed first unit is logged and the second unit is still attempted, but
no sleep event occurs at all — the inter-unit delay is NOT honored after
the failed first unit, refuting that part of the claim. -/
theorem c4_failed_unit_skips_delay_cex :
    deliver_loop (fun _ => false)
        [[Component.plain "x"], [(Component.plain "y" : Component Nat)]] =
      [Ev.attempt 0, Ev.logFail 0, Ev.attempt 1, Ev.logFail 1] ∧
    Ev.sleep ∉ deliver_loop (fun _ => false)
        [[Component.plain "x"], [(Component.plain "y" : Component Nat)]] := by
  decide

/-- Witness for C4: the second unit is still attempted although the first
unit's delivery failed. -/
theorem c4_delivery_loop_witness :
    Ev.attempt 1 ∈ deliver_loop (fun _ => false)
        [[Component.plain "p"], [(Component.plain "q" : Component Nat)]] :=
  (c4_delivery_loop (fun _ => false)
    [[Component.plain "p"], [Component.plain "q"]]).1 1 (by decide) (by decide)

/-- C8 (amended): whenever `save_history` reaches a fetched conversation,
the history list handed to the store update is EXACTLY the parsed prior
history (`parsed_history`) with EXACTLY one new record appended, whose
role is `"assistant"` and whose content is the argument — nothing of the
parsed prior history is discarded and nothing else is added; the content
saved by a take-over pass is the concatenation, in order and with no
separators, of every text item of the original pre-clean chain.  When no
current conversation id — or no conversation object — exists, the capture
is skipped SILENTLY (nothing logged — the one departure from the claim,
which asserts a warning is logged); a store error is caught and logged;
`save_history` always returns, so the pass is never aborted. -/
theorem c8_history_capture (parse : String → Option (List HRecord))
    (getConv : String → Except Unit (Option Conversation)) (updateOk : Bool)
    (content : String) :
    (∀ (c : String) (conv : Conversation),
      getConv c = Except.ok (some conv) →
      (save_history parse (Except.ok (some c)) getConv updateOk content).updateCalled =
        some (parsed_history parse conv ++
          [{ role := "assistant", content := content }])) ∧
    (save_history parse (Except.ok none) getConv updateOk content =
      { updateCalled := none, errorLogged := false }) ∧
    (save_history parse (Except.error ()) getConv updateOk content =
      { updateCalled := none, errorLogged := true }) ∧
    (∀ (c : String), getConv c = Except.ok none →
      save_history parse (Except.ok (some c)) getConv updateOk content =
        { updateCalled := none, errorLogged := false }) ∧
    (∀ (c : String), getConv c = Except.error () →
      save_history parse (Except.ok (some c)) getConv updateOk content =
        { updateCalled := none, errorLogged := true }) ∧
    (∀ (cp : Option (String → String)) (s : String → List String)
      (chain : List (Component α)) (r : String),
      (on_decorating_result cp s chain).savedHistory = some r →
      r = full_text_for_history chain) := by
  refine ⟨?_, rfl, rfl, ?_, ?_, ?_⟩
  · intro c conv hgc
    simp only [save_history, parsed_history]
    rw [hgc]
  · intro c hgc
    simp only [save_history]
    rw [hgc]
  · intro c hgc
    simp only [save_history]
    rw [hgc]
  · intro cp s chain r hr
    simp only [on_decorating_result] at hr
    by_cases hce : chain.isEmpty = true
    · rw [if_pos hce] at hr
      simp [pass_noop] at hr
    · rw [if_neg hce] at hr
      by_cases hcond : (split_chain s (cleaned_chain cp chain)).length ≤ 1 ∧
          cp.isSome = false
      · rw [if_pos hcond] at hr
        simp [pass_noop] at hr
      · rw [if_neg hcond] at hr
        exact (Option.some.inj hr).symm

/-- C8 counterexample: when the store has no current conversation id, the
capture is skipped but nothing is logged (`errorLogged = false`),
refuting the claim's "a warning is logged" for that case (the code's
`if not cid: return` logs nothing). -/
theorem c8_missing_conversation_silent_cex :
    save_history (fun _ => none) (Except.ok none)
        (fun _ => Except.ok none) true "hi" =
      { updateCalled := none, errorLogged := false } := rfl

/-- Witness for C8: with a stored well-formed prior history of one user
record, the update is called with that record followed by exactly the one
new assistant record. -/
theorem c8_history_capture_witness :
    (save_history (fun _ => some [{ role := "user", content := "hey" }])
        (Except.ok (some "c1"))
        (fun _ => Except.ok (some { history := some "prior" })) true
        "reply").updateCalled =
      some [{ role := "user", content := "hey" },
            { role := "assistant", content := "reply" }] :=
  (@c8_history_capture Nat (fun _ => some [{ role := "user", content := "hey" }])
    (fun _ => Except.ok (some { history := some "prior" })) true "reply").1
    "c1" { history := some "prior" } rfl

/-- C10: when the stored history string is present, non-empty, and fails
to parse (`json.loads` raises `JSONDecodeError`), `save_history` treats
the history as empty and calls the store update with a list containing
only the newly appended assistant record, discarding the malformed prior
history; nothing is logged unless the update itself fails, and the
function returns normally rather than raising. -/
theorem c10_malformed_history_reset (parse : String → Option (List HRecord))
    (getConv : String → Except Unit (Option Conversation)) (updateOk : Bool)
    (content c h0 : String) (hparse : parse h0 = none) (hne : h0 ≠ "")
    (hg : getConv c = Except.ok (some { history := some h0 })) :
    save_history parse (Except.ok (some c)) getConv updateOk content =
      { updateCalled := some [{ role := "assistant", content := content }],
        errorLogged := !updateOk } := by
  simp only [save_history]
  rw [hg]
  dsimp only
  rw [if_neg (show ¬ ((h0 == "") = true) by simp [hne])]
  rw [hparse]
  rfl

/-- Witness for C10 at a concrete malformed history string. -/
theorem c10_malformed_history_reset_witness :
    save_history (fun _ => none) (Except.ok (some "c1"))
        (fun _ => Except.ok (some { history := some "not-json" })) true "reply" =
      { updateCalled := some [{ role := "assistant", content := "reply" }],
        errorLogged := false } :=
  c10_malformed_history_reset (fun _ => none)
    (fun _ => Except.ok (some { history := some "not-json" })) true "reply" "c1"
    "not-json" rfl (by decide) rfl

end Splitter
